import Mathlib

/-!
Shallow embedding of `DND_Functions.py`: the dice roller `GetRollValue`, the
attack simulator `MonteCarloAttack` and the frequency aggregator
`ReturnFrequencies`, together with theorems settling the specification claims.

Modelling conventions:
* A Python value that is either an `int` or a `str` (the roll specification)
  is the inductive `PyVal`.
* `numpy` randomness is an explicit entropy stream `raw : ℕ → ℕ` together with
  a running offset; `np.random.randint(1, val + 1)` at stream position `i` is
  `1 + raw i % val`, which has exactly the support `[1, val]` of the uniform
  draw.  Each call consumes a fresh segment of the stream, so two successive
  calls are fresh independent draws.
* Python's `int(n)` on a non-negative real trial count is truncation toward
  zero, modelled on `ℚ` by `pyInt`.
* Fallible Python code (parse errors, missing keys, type errors) returns
  `Option`: `none` models a raised exception.
* The `numpy` float arrays hold integer values throughout (flat modifiers are
  ints and dice sums are ints, exactly representable), so damages are `ℤ`;
  the only genuine division, in `ReturnFrequencies`, is carried out in `ℚ`.
-/

/-- A Python value that is either an `int` or a `str`, as dispatched on by
`type(roll) == int` in `GetRollValue`. -/
inductive PyVal where
  | int (v : ℤ)
  | str (s : String)
deriving DecidableEq, Repr

/-- Python `int(q)` on a rational: truncation toward zero. -/
def pyInt (q : ℚ) : ℤ :=
  if 0 ≤ q then ⌊q⌋ else -⌊-q⌋

/-- The trial count `n = int(n)` as a natural number (the Python code only
ever uses it as a non-negative array size). -/
def pyIntNat (q : ℚ) : ℕ :=
  (pyInt q).toNat

/-- Numpy booleans act as `0`/`1` under multiplication. -/
def b2i (b : Bool) : ℤ :=
  if b then 1 else 0

/-- One per-trial summed dice roll: entry `t` of
`sum(np.random.randint(1, val + 1, size=(die, n)))`.  The `(i, t)` entry of
the 2-D array is stream draw `off + i * n + t` (C order), and `sum` adds the
`die` rows elementwise. -/
def drawSum (die val n : ℕ) (raw : ℕ → ℕ) (off t : ℕ) : ℤ :=
  ((List.range die).map (fun i => (1 : ℤ) + ((raw (off + i * n + t)) % val : ℕ))).sum

/-- One decimal digit of a Python integer literal. -/
def charToDigit? (c : Char) : Option ℕ :=
  if c.isDigit then some (c.toNat - 48) else none

/-- Accumulating decimal reading of a digit string, `none` on a non-digit. -/
def digitsVal : List Char → ℕ → Option ℕ
  | [], acc => some acc
  | c :: rest, acc =>
    match charToDigit? c with
    | some d => digitsVal rest (acc * 10 + d)
    | none => none

/-- Python `int(str)`: an optional sign followed by a non-empty run of
decimal digits; `none` models the `ValueError` on anything else. -/
def pyParseInt : List Char → Option ℤ
  | [] => none
  | '-' :: rest =>
    if rest = [] then none else (digitsVal rest 0).map (fun v => -(v : ℤ))
  | '+' :: rest =>
    if rest = [] then none else (digitsVal rest 0).map (fun v => (v : ℤ))
  | cs => (digitsVal cs 0).map (fun v => (v : ℤ))

/-- Python `str.split('D')` on the character list: splits at every `'D'`,
keeping empty fragments, and yields `[cs]` when no `'D'` occurs. -/
def splitOnD : List Char → List (List Char)
  | [] => [[]]
  | c :: rest =>
    if c = 'D' then [] :: splitOnD rest
    else
      match splitOnD rest with
      | g :: gs => (c :: g) :: gs
      | [] => [[c]]

/-- Parsing of the dice branch of `GetRollValue`:
`roll = roll.upper(); (die, val) = list(map(int, roll.split('D')))`.
`none` models the raised exception on a malformed spec. -/
def parseDice (s : String) : Option (ℤ × ℤ) :=
  match splitOnD (s.data.map Char.toUpper) with
  | [a, b] =>
    match pyParseInt a, pyParseInt b with
    | some die, some val => some (die, val)
    | _, _ => none
  | _ => none

/-- Core of `GetRollValue` for an already-truncated trial count `n`, threading
the entropy-stream offset.  Returns the per-trial roll vector and the new
offset.  In the dice branch, `numpy` raises for `val ≤ 0` (empty randint
range), and a non-positive row count `die` is degenerate (numpy would yield a
scalar, not a length-`n` vector), so both are `none`. -/
def rollValueN (roll : PyVal) (n : ℕ) (raw : ℕ → ℕ) (off : ℕ) : Option (List ℤ × ℕ) :=
  match roll with
  | PyVal.int v => some (List.replicate n v, off)
  | PyVal.str s =>
    if s.length = 1 then
      match pyParseInt s.data with
      | some v => some (List.replicate n v, off)
      | none => none
    else
      match parseDice s with
      | some (die, val) =>
        if 1 ≤ die ∧ 1 ≤ val then
          some ((List.range n).map (drawSum die.toNat val.toNat n raw off),
            off + die.toNat * n)
        else none
      | none => none

/-- Python `GetRollValue(roll, n)`: truncates `n` and draws from the start of the
given entropy stream. -/
def GetRollValue (roll : PyVal) (n : ℚ) (raw : ℕ → ℕ) : Option (List ℤ) :=
  (rollValueN roll (pyIntNat n) raw 0).map Prod.fst

/-- Python dict lookup `actions['hit']` on the association list. -/
def dictGet (k : String) : List (String × PyVal) → Option PyVal
  | [] => none
  | (k2, v) :: rest => if k2 = k then some v else dictGet k rest

/-- The action loop of `MonteCarloAttack`: accumulates `hit_success_damage`
and `hit_critical_damage` over the actions, skipping `'hit'` entirely and
skipping the critical re-roll for `'prof'`.  Every other action rolls twice:
a fresh second draw (at the advanced offset) feeds the critical sum. -/
def accumDamage (actions : List (String × PyVal)) (n : ℕ) (raw : ℕ → ℕ)
    (base crit : List ℤ) (off : ℕ) : Option (List ℤ × List ℤ × ℕ) :=
  match actions with
  | [] => some (base, crit, off)
  | (action, roll) :: rest =>
    if action = "hit" then accumDamage rest n raw base crit off
    else
      match rollValueN roll n raw off with
      | none => none
      | some (r, off1) =>
        if action = "prof" then
          accumDamage rest n raw (List.zipWith (fun x y => x + y) base r) crit off1
        else
          match rollValueN roll n raw off1 with
          | none => none
          | some (r2, off2) =>
            accumDamage rest n raw (List.zipWith (fun x y => x + y) base r)
              (List.zipWith (fun x y => x + y) crit r2) off2

/-- Python `MonteCarloAttack(actions, ac, n)`: accumulate base and critical damage,
roll `'1D20'` for the hit, classify each trial
(`hit_success = hit + actions['hit'] >= ac`, `hit_critical = hit == 20`,
`hit_absolute_miss = hit != 0`) and tally
`final_damage = base * success + critical * crit; final_damage *= absolute_miss`. -/
def MonteCarloAttack (actions : List (String × PyVal)) (ac : ℤ) (n : ℚ)
    (raw : ℕ → ℕ) : Option (List ℤ) :=
  match accumDamage actions (pyIntNat n) raw (List.replicate (pyIntNat n) 0)
      (List.replicate (pyIntNat n) 0) 0 with
  | none => none
  | some (base, crit, off) =>
    match rollValueN (PyVal.str "1D20") (pyIntNat n) raw off with
    | none => none
    | some (hitL, _) =>
      match dictGet "hit" actions with
      | some (PyVal.int b) =>
        some (List.zipWith (fun d h => d * b2i (decide (h ≠ 0)))
          (List.zipWith (fun x y => x + y)
            (List.zipWith (fun d h => d * b2i (decide (h + b ≥ ac))) base hitL)
            (List.zipWith (fun d h => d * b2i (decide (h = 20))) crit hitL))
          hitL)
      | _ => none

/-- Python `ReturnFrequencies(list_of_values)`: for each distinct value, in ascending
order, the percentage `float(count) / total_counts * 100`.  For an empty
input the loop body never runs, so no division by the zero total occurs. -/
def ReturnFrequencies (l : List ℤ) : List (ℤ × ℚ) :=
  (l.dedup.insertionSort (fun a b => a ≤ b)).map
    (fun k => (k, (l.count k : ℚ) / (l.length : ℚ) * 100))

/-! ### Basic facts about the embedding -/

/-- Every successful `rollValueN` call yields one entry per trial. -/
theorem rollValueN_length {roll : PyVal} {n : ℕ} {raw : ℕ → ℕ} {off : ℕ}
    {r : List ℤ} {off2 : ℕ} (h : rollValueN roll n raw off = some (r, off2)) :
    r.length = n := by
  cases roll with
  | int v =>
    simp only [rollValueN, Option.some.injEq, Prod.mk.injEq] at h
    rw [← h.1, List.length_replicate]
  | str s =>
    simp only [rollValueN] at h
    split at h
    · split at h
      · simp only [Option.some.injEq, Prod.mk.injEq] at h
        rw [← h.1, List.length_replicate]
      · exact absurd h (by simp)
    · split at h
      · split at h
        · simp only [Option.some.injEq, Prod.mk.injEq] at h
          rw [← h.1, List.length_map, List.length_range]
        · exact absurd h (by simp)
      · exact absurd h (by simp)

/-- The dice branch of `rollValueN`, in closed form. -/
theorem rollValueN_dice {s : String} (hs : ¬s.length = 1) {die val : ℤ}
    (hp : parseDice s = some (die, val)) (hdie : 1 ≤ die) (hval : 1 ≤ val)
    (n : ℕ) (raw : ℕ → ℕ) (off : ℕ) :
    rollValueN (PyVal.str s) n raw off =
      some ((List.range n).map (drawSum die.toNat val.toNat n raw off),
        off + die.toNat * n) := by
  simp only [rollValueN, hs, if_false, hp]
  rw [if_pos ⟨hdie, hval⟩]

/-- The hit roll `'1D20'` in closed form. -/
theorem rollValueN_1D20 (n : ℕ) (raw : ℕ → ℕ) (off : ℕ) :
    rollValueN (PyVal.str "1D20") n raw off =
      some ((List.range n).map (drawSum 1 20 n raw off), off + 1 * n) := by
  have h := @rollValueN_dice "1D20" (by decide) 1 20 rfl (by decide) (by decide)
    n raw off
  simpa using h

/-- Each single die draw lies in `[1, val]` when `val ≥ 1`. -/
theorem single_draw_bounds {val : ℕ} (hval : 1 ≤ val) (x : ℕ) :
    (1 : ℤ) ≤ 1 + ((x % val : ℕ) : ℤ) ∧ 1 + ((x % val : ℕ) : ℤ) ≤ (val : ℤ) := by
  have h1 : x % val < val := Nat.mod_lt _ (by omega)
  constructor
  · have : (0 : ℤ) ≤ ((x % val : ℕ) : ℤ) := Int.natCast_nonneg _
    omega
  · have : ((x % val : ℕ) : ℤ) < (val : ℤ) := by exact_mod_cast h1
    omega

/-- Summing a list bounded entrywise by `[a, b]` is bounded by
`[length * a, length * b]`. -/
theorem list_sum_bounds {l : List ℤ} {a b : ℤ} (h : ∀ x ∈ l, a ≤ x ∧ x ≤ b) :
    (l.length : ℤ) * a ≤ l.sum ∧ l.sum ≤ (l.length : ℤ) * b := by
  induction l with
  | nil => simp
  | cons y ys ih =>
    have hy := h y (by simp)
    have hys := ih (fun x hx => h x (by simp [hx]))
    simp only [List.sum_cons, List.length_cons]
    push_cast
    constructor <;> nlinarith [hys.1, hys.2, hy.1, hy.2]

/-- The value of `drawSum` lies in `[die, die * val]` when `val ≥ 1`. -/
theorem drawSum_bounds {die val n : ℕ} (hval : 1 ≤ val) (raw : ℕ → ℕ)
    (off t : ℕ) :
    (die : ℤ) ≤ drawSum die val n raw off t ∧
      drawSum die val n raw off t ≤ (die : ℤ) * (val : ℤ) := by
  have hb : ∀ x ∈ (List.range die).map
      (fun i => (1 : ℤ) + ((raw (off + i * n + t)) % val : ℕ)),
      (1 : ℤ) ≤ x ∧ x ≤ (val : ℤ) := by
    intro x hx
    obtain ⟨i, _, rfl⟩ := List.mem_map.1 hx
    exact single_draw_bounds hval _
  have := list_sum_bounds hb
  simpa [drawSum, mul_comm] using this

/-- Pointwise access to a `zipWith`. -/
theorem getD_zipWith (f : ℤ → ℤ → ℤ) :
    ∀ (a b : List ℤ) (t : ℕ), t < a.length → t < b.length →
      (List.zipWith f a b).getD t 0 = f (a.getD t 0) (b.getD t 0) := by
  intro a
  induction a with
  | nil => intro b t ht; simp at ht
  | cons x xs ih =>
    intro b t ht hb
    cases b with
    | nil => simp at hb
    | cons y ys =>
      cases t with
      | zero => simp
      | succ t =>
        simp only [List.zipWith_cons_cons, List.getD_cons_succ]
        exact ih ys t (by simpa using ht) (by simpa using hb)

/-- Pointwise predicate transport through `zipWith`. -/
theorem forall_mem_zipWith {f : ℤ → ℤ → ℤ} {P Q R : ℤ → Prop} :
    ∀ {a b : List ℤ}, (∀ x ∈ a, P x) → (∀ y ∈ b, Q y) →
      (∀ x y, P x → Q y → R (f x y)) → ∀ z ∈ List.zipWith f a b, R z := by
  intro a
  induction a with
  | nil => intro b _ _ _ z hz; simp at hz
  | cons x xs ih =>
    intro b ha hb hf z hz
    cases b with
    | nil => simp at hz
    | cons y ys =>
      simp only [List.zipWith_cons_cons, List.mem_cons] at hz
      rcases hz with rfl | hz
      · exact hf x y (ha x (by simp)) (hb y (by simp))
      · exact ih (fun u hu => ha u (by simp [hu])) (fun u hu => hb u (by simp [hu]))
          hf z hz

/-- The action loop preserves the per-trial length of both damage vectors. -/
theorem accumDamage_lengths :
    ∀ (actions : List (String × PyVal)) (n : ℕ) (raw : ℕ → ℕ)
      (base crit : List ℤ) (off : ℕ) (bout cout : List ℤ) (offout : ℕ),
      base.length = n → crit.length = n →
      accumDamage actions n raw base crit off = some (bout, cout, offout) →
      bout.length = n ∧ cout.length = n := by
  intro actions
  induction actions with
  | nil =>
    intro n raw base crit off bout cout offout hb hc h
    simp only [accumDamage, Option.some.injEq, Prod.mk.injEq] at h
    rw [← h.1, ← h.2.1]
    exact ⟨hb, hc⟩
  | cons p rest ih =>
    obtain ⟨action, roll⟩ := p
    intro n raw base crit off bout cout offout hb hc h
    simp only [accumDamage] at h
    split at h
    · exact ih n raw base crit off bout cout offout hb hc h
    · split at h
      · exact absurd h (by simp)
      · rename_i r off1 heq
        have hr : r.length = n := rollValueN_length heq
        split at h
        · refine ih n raw _ crit off1 bout cout offout ?_ hc h
          rw [List.length_zipWith, hb, hr, Nat.min_self]
        · split at h
          · exact absurd h (by simp)
          · rename_i r2 off2 heq2
            have hr2 : r2.length = n := rollValueN_length heq2
            refine ih n raw _ _ off2 bout cout offout ?_ ?_ h
            · rw [List.length_zipWith, hb, hr, Nat.min_self]
            · rw [List.length_zipWith, hc, hr2, Nat.min_self]

/-- The function `MonteCarloAttack` in closed form, given the values of its three
intermediate computations. -/
theorem monteCarloAttack_eq (actions : List (String × PyVal)) (ac : ℤ) (n : ℚ)
    (raw : ℕ → ℕ) {base crit : List ℤ} {off off2 : ℕ} {hitL : List ℤ} {b : ℤ}
    (haccum : accumDamage actions (pyIntNat n) raw
      (List.replicate (pyIntNat n) 0) (List.replicate (pyIntNat n) 0) 0 =
      some (base, crit, off))
    (hroll : rollValueN (PyVal.str "1D20") (pyIntNat n) raw off =
      some (hitL, off2))
    (hb : dictGet "hit" actions = some (PyVal.int b)) :
    MonteCarloAttack actions ac n raw =
      some (List.zipWith (fun d h => d * b2i (decide (h ≠ 0)))
        (List.zipWith (fun x y => x + y)
          (List.zipWith (fun d h => d * b2i (decide (h + b ≥ ac))) base hitL)
          (List.zipWith (fun d h => d * b2i (decide (h = 20))) crit hitL))
        hitL) := by
  unfold MonteCarloAttack
  rw [haccum]
  dsimp only
  rw [hroll]
  dsimp only
  rw [hb]

/-- Per-trial description of a successful `MonteCarloAttack` run: the output
has one entry per trial and entry `t` is
`(base * success + critical * crit) * absolute_miss` evaluated at trial `t`. -/
theorem monteCarloAttack_getD (actions : List (String × PyVal)) (ac : ℤ)
    (n : ℚ) (raw : ℕ → ℕ) {base crit : List ℤ} {off off2 : ℕ} {hitL : List ℤ}
    {b : ℤ}
    (haccum : accumDamage actions (pyIntNat n) raw
      (List.replicate (pyIntNat n) 0) (List.replicate (pyIntNat n) 0) 0 =
      some (base, crit, off))
    (hroll : rollValueN (PyVal.str "1D20") (pyIntNat n) raw off =
      some (hitL, off2))
    (hb : dictGet "hit" actions = some (PyVal.int b)) :
    ∃ out, MonteCarloAttack actions ac n raw = some out ∧
      out.length = pyIntNat n ∧
      ∀ t, t < pyIntNat n →
        out.getD t 0 =
          (base.getD t 0 * b2i (decide (hitL.getD t 0 + b ≥ ac)) +
            crit.getD t 0 * b2i (decide (hitL.getD t 0 = 20))) *
          b2i (decide (hitL.getD t 0 ≠ 0)) := by
  obtain ⟨hblen, hclen⟩ := accumDamage_lengths _ _ _ _ _ _ _ _ _
    (List.length_replicate _ _) (List.length_replicate _ _) haccum
  have hhlen : hitL.length = pyIntNat n := rollValueN_length hroll
  refine ⟨_, monteCarloAttack_eq actions ac n raw haccum hroll hb, ?_, ?_⟩
  · simp [List.length_zipWith, hblen, hclen, hhlen]
  · intro t ht
    have h1 : t < base.length := by rw [hblen]; exact ht
    have h2 : t < crit.length := by rw [hclen]; exact ht
    have h3 : t < hitL.length := by rw [hhlen]; exact ht
    have hB : t < (List.zipWith
        (fun d h => d * b2i (decide (h + b ≥ ac))) base hitL).length := by
      rw [List.length_zipWith, hblen, hhlen, Nat.min_self]; exact ht
    have hC : t < (List.zipWith
        (fun d h => d * b2i (decide (h = 20))) crit hitL).length := by
      rw [List.length_zipWith, hclen, hhlen, Nat.min_self]; exact ht
    have hA : t < (List.zipWith (fun x y => x + y)
        (List.zipWith (fun d h => d * b2i (decide (h + b ≥ ac))) base hitL)
        (List.zipWith (fun d h => d * b2i (decide (h = 20))) crit hitL)).length := by
      rw [List.length_zipWith]; exact lt_min hB hC
    rw [getD_zipWith _ _ _ t hA h3, getD_zipWith _ _ _ t hB hC,
      getD_zipWith _ _ _ t h1 h3, getD_zipWith _ _ _ t h2 h3]

/-- Every entry of the `'1D20'` hit-roll vector lies in `[1, 20]`. -/
theorem hitRoll_bounds {n off off2 : ℕ} {raw : ℕ → ℕ} {hitL : List ℤ}
    (hroll : rollValueN (PyVal.str "1D20") n raw off = some (hitL, off2)) :
    ∀ h ∈ hitL, 1 ≤ h ∧ h ≤ 20 := by
  rw [rollValueN_1D20] at hroll
  simp only [Option.some.injEq, Prod.mk.injEq] at hroll
  intro h hh
  rw [← hroll.1] at hh
  obtain ⟨t, -, rfl⟩ := List.mem_map.1 hh
  have hb := @drawSum_bounds 1 20 n (by norm_num) raw off t
  constructor
  · exact_mod_cast hb.1
  · have := hb.2
    norm_num at this
    exact this

/-- Multiplying elementwise by `hit != 0` is the identity when every hit roll
is non-zero. -/
theorem zipWith_absMiss_id :
    ∀ (fd hitL : List ℤ), fd.length = hitL.length → (∀ h ∈ hitL, h ≠ 0) →
      List.zipWith (fun d h => d * b2i (decide (h ≠ 0))) fd hitL = fd := by
  intro fd
  induction fd with
  | nil => intro hitL _ _; simp
  | cons d ds ih =>
    intro hitL hlen hne
    cases hitL with
    | nil => simp at hlen
    | cons h hs =>
      simp only [List.zipWith_cons_cons]
      have hh : h ≠ 0 := hne h (by simp)
      rw [ih hs (by simpa using hlen) (fun x hx => hne x (by simp [hx]))]
      simp [b2i, hh]

/-- A roll specification that can only produce non-negative values: a
non-negative flat integer, or any string (single-character numeric strings
denote a non-negative digit, and dice rolls are positive). -/
def specNonnegB : PyVal → Bool
  | PyVal.int v => decide (0 ≤ v)
  | PyVal.str s =>
    match pyParseInt s.data with
    | some v => decide (0 ≤ v)
    | none => true

/-- A successful roll of a `specNonnegB` specification yields only
non-negative entries. -/
theorem rollValueN_nonneg {roll : PyVal} {n : ℕ} {raw : ℕ → ℕ} {off : ℕ}
    {r : List ℤ} {off2 : ℕ} (h : rollValueN roll n raw off = some (r, off2))
    (hnn : specNonnegB roll = true) : ∀ x ∈ r, 0 ≤ x := by
  cases roll with
  | int v =>
    simp only [specNonnegB, decide_eq_true_eq] at hnn
    simp only [rollValueN, Option.some.injEq, Prod.mk.injEq] at h
    intro x hx
    rw [← h.1] at hx
    rw [List.eq_of_mem_replicate hx]
    exact hnn
  | str s =>
    simp only [rollValueN] at h
    split at h
    · split at h
      · rename_i v heq
        simp only [Option.some.injEq, Prod.mk.injEq] at h
        intro x hx
        rw [← h.1] at hx
        rw [List.eq_of_mem_replicate hx]
        simp only [specNonnegB, heq, decide_eq_true_eq] at hnn
        exact hnn
      · exact absurd h (by simp)
    · split at h
      · rename_i die val heq
        split at h
        · rename_i hguard
          simp only [Option.some.injEq, Prod.mk.injEq] at h
          intro x hx
          rw [← h.1] at hx
          obtain ⟨t, -, rfl⟩ := List.mem_map.1 hx
          have hval : 1 ≤ val.toNat := by omega
          have hb := @drawSum_bounds die.toNat val.toNat n hval raw off t
          exact le_trans (Int.natCast_nonneg _) hb.1
        · exact absurd h (by simp)
      · exact absurd h (by simp)

/-- The action loop preserves non-negativity of both damage vectors when
every non-`'hit'` action has a non-negative specification. -/
theorem accumDamage_nonneg :
    ∀ (actions : List (String × PyVal)) (n : ℕ) (raw : ℕ → ℕ)
      (base crit : List ℤ) (off : ℕ) (bout cout : List ℤ) (offout : ℕ),
      (∀ p ∈ actions, p.1 ≠ "hit" → specNonnegB p.2 = true) →
      (∀ x ∈ base, (0 : ℤ) ≤ x) → (∀ x ∈ crit, (0 : ℤ) ≤ x) →
      accumDamage actions n raw base crit off = some (bout, cout, offout) →
      (∀ x ∈ bout, (0 : ℤ) ≤ x) ∧ ∀ x ∈ cout, (0 : ℤ) ≤ x := by
  intro actions
  induction actions with
  | nil =>
    intro n raw base crit off bout cout offout _ hb hc h
    simp only [accumDamage, Option.some.injEq, Prod.mk.injEq] at h
    rw [← h.1, ← h.2.1]
    exact ⟨hb, hc⟩
  | cons p rest ih =>
    obtain ⟨action, roll⟩ := p
    intro n raw base crit off bout cout offout hnn hb hc h
    simp only [accumDamage] at h
    split at h
    · exact ih n raw base crit off bout cout offout
        (fun q hq => hnn q (by simp [hq])) hb hc h
    · rename_i hne
      have hr0 : specNonnegB roll = true :=
        hnn (action, roll) (by simp) hne
      split at h
      · exact absurd h (by simp)
      · rename_i r off1 heq
        have hrnn : ∀ x ∈ r, (0 : ℤ) ≤ x := rollValueN_nonneg heq hr0
        have hbase1 : ∀ x ∈ List.zipWith (fun x y => x + y) base r, (0 : ℤ) ≤ x :=
          forall_mem_zipWith hb hrnn (fun x y hx hy => add_nonneg hx hy)
        split at h
        · exact ih n raw _ crit off1 bout cout offout
            (fun q hq => hnn q (by simp [hq])) hbase1 hc h
        · split at h
          · exact absurd h (by simp)
          · rename_i r2 off2 heq2
            have hr2nn : ∀ x ∈ r2, (0 : ℤ) ≤ x := rollValueN_nonneg heq2 hr0
            exact ih n raw _ _ off2 bout cout offout
              (fun q hq => hnn q (by simp [hq])) hbase1
              (forall_mem_zipWith hc hr2nn (fun x y hx hy => add_nonneg hx hy)) h

/-- Inversion of a successful `MonteCarloAttack` run into its intermediate
computations. -/
theorem monteCarloAttack_inv {actions : List (String × PyVal)} {ac : ℤ}
    {n : ℚ} {raw : ℕ → ℕ} {out : List ℤ}
    (hout : MonteCarloAttack actions ac n raw = some out) :
    ∃ base crit off hitL off2 b,
      accumDamage actions (pyIntNat n) raw (List.replicate (pyIntNat n) 0)
        (List.replicate (pyIntNat n) 0) 0 = some (base, crit, off) ∧
      rollValueN (PyVal.str "1D20") (pyIntNat n) raw off = some (hitL, off2) ∧
      dictGet "hit" actions = some (PyVal.int b) ∧
      out = List.zipWith (fun d h => d * b2i (decide (h ≠ 0)))
        (List.zipWith (fun x y => x + y)
          (List.zipWith (fun d h => d * b2i (decide (h + b ≥ ac))) base hitL)
          (List.zipWith (fun d h => d * b2i (decide (h = 20))) crit hitL))
        hitL := by
  unfold MonteCarloAttack at hout
  split at hout
  · exact absurd hout (by simp)
  · rename_i base crit off haccum
    split at hout
    · exact absurd hout (by simp)
    · rename_i hitL off2 hroll
      split at hout
      · rename_i b hb
        simp only [Option.some.injEq] at hout
        exact ⟨base, crit, off, hitL, off2, b, haccum, hroll, hb, hout.symm⟩
      · exact absurd hout (by simp)

/-- Every successful `MonteCarloAttack` run yields one damage entry per
trial. -/
theorem monteCarloAttack_length {actions : List (String × PyVal)} {ac : ℤ}
    {n : ℚ} {raw : ℕ → ℕ} {out : List ℤ}
    (hout : MonteCarloAttack actions ac n raw = some out) :
    out.length = pyIntNat n := by
  obtain ⟨base, crit, off, hitL, off2, b, haccum, hroll, hb, heq⟩ :=
    monteCarloAttack_inv hout
  obtain ⟨hblen, hclen⟩ := accumDamage_lengths _ _ _ _ _ _ _ _ _
    (List.length_replicate _ _) (List.length_replicate _ _) haccum
  have hhlen : hitL.length = pyIntNat n := rollValueN_length hroll
  rw [heq]
  simp [List.length_zipWith, hblen, hclen, hhlen]

/-! ### Concrete instances used to exercise the theorems -/

/-- An entropy stream on which every die shows its lowest face. -/
def rawZero : ℕ → ℕ := fun _ => 0

/-- An entropy stream making the hit roll of `cexActions` a natural 20:
position 2 (the first hit-roll draw after the two longbow draws) reads 19,
and `1 + 19 % 20 = 20`. -/
def cexRaw : ℕ → ℕ := fun i => if i = 2 then 19 else 0

/-- The action set `{"hit": 0, "longbow": "1D6"}` of the unreachable-defense
scenario. -/
def cexActions : List (String × PyVal) :=
  [("hit", PyVal.int 0), ("longbow", PyVal.str "1D6")]

/-- The action set `{"hit": 0, "mod": -5}` carrying a negative flat damage
modifier. -/
def negActions : List (String × PyVal) :=
  [("hit", PyVal.int 0), ("mod", PyVal.int (-5))]

/-- The action set `{"hit": 5, "longbow": "1D8"}` of the spec's scenario. -/
def wActions : List (String × PyVal) :=
  [("hit", PyVal.int 5), ("longbow", PyVal.str "1D8")]

/-- The non-integer trial count `3/2`. -/
def threeHalves : ℚ := ⟨3, 2, by decide, by decide⟩

/-! ### The claims -/

/-- C6: for every flat integer spec `v` and trial count `n`, `GetRollValue`
returns `int(n)` copies of `v`; a single-character numeric string is treated
the same way, as the flat integer it denotes, bypassing dice-notation
parsing; in particular `roll(3, 5)` is `[3, 3, 3, 3, 3]`. -/
theorem claim_C6_flat_rolls (n : ℚ) (raw : ℕ → ℕ) :
    (∀ v : ℤ, GetRollValue (PyVal.int v) n raw =
      some (List.replicate (pyIntNat n) v)) ∧
    (∀ (s : String) (w : ℤ), s.length = 1 → pyParseInt s.data = some w →
      GetRollValue (PyVal.str s) n raw = some (List.replicate (pyIntNat n) w)) ∧
    GetRollValue (PyVal.int 3) 5 raw = some [3, 3, 3, 3, 3] := by
  refine ⟨fun v => rfl, fun s w hs hw => ?_, ?_⟩
  · simp [GetRollValue, rollValueN, hs, hw]
  · show (rollValueN (PyVal.int 3) (pyIntNat 5) raw 0).map Prod.fst = _
    have h5 : pyIntNat 5 = 5 := by decide
    rw [h5]
    rfl

/-- Witness for C6 at `v = 3, n = 5` and at the one-character string `"7"`. -/
theorem claim_C6_flat_rolls_witness :
    GetRollValue (PyVal.int 3) 5 rawZero = some [3, 3, 3, 3, 3] ∧
    GetRollValue (PyVal.str "7") 5 rawZero = some [7, 7, 7, 7, 7] := by
  refine ⟨(claim_C6_flat_rolls 5 rawZero).2.2, ?_⟩
  have h := (claim_C6_flat_rolls 5 rawZero).2.1 "7" 7 (by decide) (by decide)
  rw [h]
  decide

/-- C7: for every well-formed dice spec `"<c>D<f>"` (case-insensitive, length
greater than one, `c ≥ 1`, `f ≥ 1`) and every trial count, every element of
the returned vector lies in `[c, c * f]`. -/
theorem claim_C7_dice_range (s : String) (die val : ℤ) (n : ℚ) (raw : ℕ → ℕ)
    (hs : ¬s.length = 1) (hp : parseDice s = some (die, val))
    (hdie : 1 ≤ die) (hval : 1 ≤ val) (out : List ℤ)
    (hout : GetRollValue (PyVal.str s) n raw = some out) :
    ∀ x ∈ out, die ≤ x ∧ x ≤ die * val := by
  unfold GetRollValue at hout
  rw [rollValueN_dice hs hp hdie hval] at hout
  simp only [Option.map_some', Option.some.injEq] at hout
  intro x hx
  rw [← hout] at hx
  obtain ⟨t, -, rfl⟩ := List.mem_map.1 hx
  have hb := @drawSum_bounds die.toNat val.toNat (pyIntNat n) (by omega) raw
    0 t
  have hd : ((die.toNat : ℤ)) = die := Int.toNat_of_nonneg (by omega)
  have hv : ((val.toNat : ℤ)) = val := Int.toNat_of_nonneg (by omega)
  rw [hd, hv] at hb
  exact hb

/-- Witness for C7 on the spec `"2D8"` with one trial on `rawZero`. -/
theorem claim_C7_dice_range_witness :
    ¬("2D8".length = 1) ∧ parseDice "2D8" = some (2, 8) ∧
    GetRollValue (PyVal.str "2D8") 1 rawZero = some [2] ∧
    ∀ x ∈ [(2 : ℤ)], (2 : ℤ) ≤ x ∧ x ≤ 2 * 8 := by
  refine ⟨by decide, by decide, by decide, ?_⟩
  exact claim_C7_dice_range "2D8" 2 8 1 rawZero (by decide) (by decide)
    (by decide) (by decide) [2] (by decide)

/-- C9: the empty input yields an empty frequency table (and the embedding is
a total function, so no error is raised and no division by the zero total
occurs). -/
theorem claim_C9_empty_frequencies : ReturnFrequencies [] = [] := rfl

/-- C8: for every non-empty input vector, the percentages in the frequency
table sum to exactly 100 in rational arithmetic. -/
theorem claim_C8_percentages_sum_100 (l : List ℤ) (h : l ≠ []) :
    ((ReturnFrequencies l).map Prod.snd).sum = 100 := by
  have hL : ((l.length : ℚ)) ≠ 0 :=
    Nat.cast_ne_zero.2 (List.length_pos.2 h).ne'
  unfold ReturnFrequencies
  rw [List.map_map]
  have hcomp : (Prod.snd ∘ fun k =>
      ((k, (l.count k : ℚ) / (l.length : ℚ) * 100) : ℤ × ℚ)) =
      fun k => (l.count k : ℚ) / (l.length : ℚ) * 100 := rfl
  rw [hcomp]
  have hperm := (List.perm_insertionSort (fun a b => a ≤ b) l.dedup).map
    (fun k => (l.count k : ℚ) / (l.length : ℚ) * 100)
  rw [hperm.sum_eq]
  have hre : (fun k => (l.count k : ℚ) / (l.length : ℚ) * 100) =
      fun k => (l.count k : ℚ) * ((l.length : ℚ)⁻¹ * 100) := by
    funext k
    ring
  rw [hre, List.sum_map_mul_right]
  have hcast : (l.dedup.map fun k => ((l.count k : ℕ) : ℚ)).sum =
      ((l.length : ℕ) : ℚ) := by
    have hn := List.sum_map_count_dedup_eq_length l
    calc (l.dedup.map fun k => ((l.count k : ℕ) : ℚ)).sum
        = (((l.dedup.map fun k => l.count k).sum : ℕ) : ℚ) := by
          rw [Nat.cast_list_sum, List.map_map]
          rfl
      _ = ((l.length : ℕ) : ℚ) := by rw [hn]
  rw [hcast]
  field_simp

/-- Witness for C8 on the vector `[0, 0, 7]`. -/
theorem claim_C8_percentages_sum_100_witness :
    ([(0 : ℤ), 0, 7] ≠ []) ∧
    ((ReturnFrequencies [0, 0, 7]).map Prod.snd).sum = 100 :=
  ⟨by decide, claim_C8_percentages_sum_100 [0, 0, 7] (by decide)⟩

/-- C5: every `'1D20'` hit roll is non-zero (the d20 lies in `[1, 20]`), so
the final zeroing step `final_damage *= (hit != 0)` never changes any
trial's damage. -/
theorem claim_C5_absolute_miss_vacuous (n off off2 : ℕ) (raw : ℕ → ℕ)
    (hitL : List ℤ)
    (hroll : rollValueN (PyVal.str "1D20") n raw off = some (hitL, off2)) :
    (∀ h ∈ hitL, h ≠ 0) ∧
    ∀ fd : List ℤ, fd.length = hitL.length →
      List.zipWith (fun d h => d * b2i (decide (h ≠ 0))) fd hitL = fd := by
  have hb := hitRoll_bounds hroll
  have hne : ∀ h ∈ hitL, h ≠ 0 := by
    intro h hh
    have := hb h hh
    omega
  exact ⟨hne, fun fd hlen => zipWith_absMiss_id fd hitL hlen hne⟩

/-- Witness for C5 with one trial on `rawZero` (hit roll `[1]`). -/
theorem claim_C5_absolute_miss_vacuous_witness :
    rollValueN (PyVal.str "1D20") 1 rawZero 0 = some ([1], 1) ∧
    (∀ h ∈ [(1 : ℤ)], h ≠ 0) ∧
    List.zipWith (fun d h => d * b2i (decide (h ≠ 0))) [(5 : ℤ)] [(1 : ℤ)] =
      [5] := by
  have h0 : rollValueN (PyVal.str "1D20") 1 rawZero 0 = some ([1], 1) := by
    decide
  have h := claim_C5_absolute_miss_vacuous 1 0 1 rawZero [1] h0
  exact ⟨h0, h.1, h.2 [5] (by decide)⟩

/-- C3: for every trial `t`, the final damage is
`base * isHit + criticalExtra * isCritical` with `isHit` being
`hitRoll + actions["hit"] >= defense` and `isCritical` being
`hitRoll == 20`, then zeroed if `isAbsoluteMiss` (`hitRoll != 0`) is
false. -/
theorem claim_C3_per_trial_total (actions : List (String × PyVal)) (ac : ℤ)
    (n : ℚ) (raw : ℕ → ℕ) (base crit : List ℤ) (off off2 : ℕ) (hitL : List ℤ)
    (b : ℤ) (t : ℕ)
    (haccum : accumDamage actions (pyIntNat n) raw
      (List.replicate (pyIntNat n) 0) (List.replicate (pyIntNat n) 0) 0 =
      some (base, crit, off))
    (hroll : rollValueN (PyVal.str "1D20") (pyIntNat n) raw off =
      some (hitL, off2))
    (hb : dictGet "hit" actions = some (PyVal.int b))
    (ht : t < pyIntNat n) :
    ∃ out, MonteCarloAttack actions ac n raw = some out ∧
      out.length = pyIntNat n ∧
      out.getD t 0 =
        (base.getD t 0 * b2i (decide (hitL.getD t 0 + b ≥ ac)) +
          crit.getD t 0 * b2i (decide (hitL.getD t 0 = 20))) *
        b2i (decide (hitL.getD t 0 ≠ 0)) := by
  obtain ⟨out, h1, h2, h3⟩ := monteCarloAttack_getD actions ac n raw
    haccum hroll hb
  exact ⟨out, h1, h2, h3 t ht⟩

/-- Witness for C3: the scenario `{"hit": 5, "longbow": "1D8"}` against
defense 14 with one trial on `rawZero` (all dice show 1, hit roll 1, a
miss, damage 0). -/
theorem claim_C3_per_trial_total_witness :
    accumDamage wActions (pyIntNat 1) rawZero
      (List.replicate (pyIntNat 1) 0) (List.replicate (pyIntNat 1) 0) 0 =
      some ([1], [1], 2) ∧
    rollValueN (PyVal.str "1D20") (pyIntNat 1) rawZero 2 = some ([1], 3) ∧
    dictGet "hit" wActions = some (PyVal.int 5) ∧ 0 < pyIntNat 1 ∧
    ∃ out, MonteCarloAttack wActions 14 1 rawZero = some out ∧
      out.length = pyIntNat 1 ∧
      out.getD 0 0 =
        (([(1 : ℤ)]).getD 0 0 *
            b2i (decide (([(1 : ℤ)]).getD 0 0 + 5 ≥ (14 : ℤ))) +
          ([(1 : ℤ)]).getD 0 0 *
            b2i (decide (([(1 : ℤ)]).getD 0 0 = 20))) *
        b2i (decide (([(1 : ℤ)]).getD 0 0 ≠ 0)) := by
  refine ⟨by decide, by decide, by decide, by decide, ?_⟩
  exact claim_C3_per_trial_total wActions 14 1 rawZero [1] [1] 2 3 [1] 5 0
    (by decide) (by decide) (by decide) (by decide)

/-- C1 counterexample: with `{"hit": 0, "longbow": "1D6"}` against defense
25 and a natural-20 hit roll, `accumDamage` gives base damage `[1]` and
critical extra `[1]`, yet the trial total is `1`, not `1 + 1`: the natural
20 does not count as a hit, so the base damage component is excluded. -/
theorem claim_C1_counterexample :
    accumDamage cexActions (pyIntNat 1) cexRaw
      (List.replicate (pyIntNat 1) 0) (List.replicate (pyIntNat 1) 0) 0 =
      some ([1], [1], 2) ∧
    rollValueN (PyVal.str "1D20") (pyIntNat 1) cexRaw 2 = some ([20], 3) ∧
    MonteCarloAttack cexActions 25 1 cexRaw = some [1] ∧
    ¬((1 : ℤ) = 1 + 1) := by
  refine ⟨by decide, by decide, by decide, by decide⟩

/-- C1 amended: a natural 20 is always a critical regardless of defense (the
critical extra is always added in full), but it counts as a hit only when
`20 + actions["hit"] >= defense`; the trial total is
`base * (20 + hit >= defense) + criticalExtra`. -/
theorem claim_C1_nat20_amended (actions : List (String × PyVal)) (ac : ℤ)
    (n : ℚ) (raw : ℕ → ℕ) (base crit : List ℤ) (off off2 : ℕ)
    (hitL : List ℤ) (b : ℤ) (t : ℕ)
    (haccum : accumDamage actions (pyIntNat n) raw
      (List.replicate (pyIntNat n) 0) (List.replicate (pyIntNat n) 0) 0 =
      some (base, crit, off))
    (hroll : rollValueN (PyVal.str "1D20") (pyIntNat n) raw off =
      some (hitL, off2))
    (hb : dictGet "hit" actions = some (PyVal.int b))
    (ht : t < pyIntNat n) (h20 : hitL.getD t 0 = 20) :
    ∃ out, MonteCarloAttack actions ac n raw = some out ∧
      out.getD t 0 =
        base.getD t 0 * b2i (decide ((20 : ℤ) + b ≥ ac)) + crit.getD t 0 := by
  obtain ⟨out, h1, h2, h3⟩ := monteCarloAttack_getD actions ac n raw
    haccum hroll hb
  refine ⟨out, h1, ?_⟩
  rw [h3 t ht, h20]
  simp [b2i]

/-- Witness for the amended C1 on the natural-20 counterexample scenario:
`base * (20 + 0 >= 25) + crit = 0 + 1 = 1`. -/
theorem claim_C1_nat20_amended_witness :
    accumDamage cexActions (pyIntNat 1) cexRaw
      (List.replicate (pyIntNat 1) 0) (List.replicate (pyIntNat 1) 0) 0 =
      some ([1], [1], 2) ∧
    rollValueN (PyVal.str "1D20") (pyIntNat 1) cexRaw 2 = some ([20], 3) ∧
    dictGet "hit" cexActions = some (PyVal.int 0) ∧
    0 < pyIntNat 1 ∧ ([(20 : ℤ)]).getD 0 0 = 20 ∧
    ∃ out, MonteCarloAttack cexActions 25 1 cexRaw = some out ∧
      out.getD 0 0 =
        ([(1 : ℤ)]).getD 0 0 * b2i (decide ((20 : ℤ) + 0 ≥ (25 : ℤ))) +
          ([(1 : ℤ)]).getD 0 0 := by
  refine ⟨by decide, by decide, by decide, by decide, by decide, ?_⟩
  exact claim_C1_nat20_amended cexActions 25 1 cexRaw [1] [1] 2 3 [20] 0 0
    (by decide) (by decide) (by decide) (by decide) (by decide)

/-- C2 counterexample: with the negative flat modifier `{"hit": 0, "mod": -5}`
against defense 1, the only trial's damage is `-5`, a negative entry. -/
theorem claim_C2_counterexample :
    MonteCarloAttack negActions 1 1 rawZero = some [-5] ∧
    ¬((0 : ℤ) ≤ -5) := by
  refine ⟨by decide, by decide⟩

/-- C2 amended: every entry of the damage vector is non-negative provided
every non-`"hit"` action has a non-negative roll specification (dice specs
and single-character digit strings always do; a negative flat integer
modifier violates it and can produce negative entries). -/
theorem claim_C2_nonneg_amended (actions : List (String × PyVal)) (ac : ℤ)
    (n : ℚ) (raw : ℕ → ℕ) (out : List ℤ)
    (hnn : ∀ p ∈ actions, p.1 ≠ "hit" → specNonnegB p.2 = true)
    (hout : MonteCarloAttack actions ac n raw = some out) :
    ∀ x ∈ out, 0 ≤ x := by
  obtain ⟨base, crit, off, hitL, off2, b, haccum, hroll, hb, heq⟩ :=
    monteCarloAttack_inv hout
  have h0 : ∀ x ∈ List.replicate (pyIntNat n) (0 : ℤ), (0 : ℤ) ≤ x := by
    intro x hx
    rw [List.eq_of_mem_replicate hx]
  obtain ⟨hbase, hcrit⟩ := accumDamage_nonneg _ _ _ _ _ _ _ _ _ hnn h0 h0
    haccum
  have hb2 : ∀ bl : Bool, (0 : ℤ) ≤ b2i bl := by
    intro bl
    cases bl <;> simp [b2i]
  have htriv : ∀ x ∈ hitL, True := fun _ _ => trivial
  have hhs : ∀ z ∈ List.zipWith
      (fun d h => d * b2i (decide (h + b ≥ ac))) base hitL, (0 : ℤ) ≤ z :=
    forall_mem_zipWith hbase htriv (fun x y hx _ => mul_nonneg hx (hb2 _))
  have hhc : ∀ z ∈ List.zipWith
      (fun d h => d * b2i (decide (h = 20))) crit hitL, (0 : ℤ) ≤ z :=
    forall_mem_zipWith hcrit htriv (fun x y hx _ => mul_nonneg hx (hb2 _))
  have hfd : ∀ z ∈ List.zipWith (fun x y => x + y)
      (List.zipWith (fun d h => d * b2i (decide (h + b ≥ ac))) base hitL)
      (List.zipWith (fun d h => d * b2i (decide (h = 20))) crit hitL),
      (0 : ℤ) ≤ z :=
    forall_mem_zipWith hhs hhc (fun x y hx hy => add_nonneg hx hy)
  rw [heq]
  exact forall_mem_zipWith hfd htriv (fun x y hx _ => mul_nonneg hx (hb2 _))

/-- Witness for the amended C2 on `{"hit": 5, "longbow": "1D8"}`: all
specifications are non-negative and the one-trial output `[0]` is
non-negative. -/
theorem claim_C2_nonneg_amended_witness :
    (∀ p ∈ wActions, p.1 ≠ "hit" → specNonnegB p.2 = true) ∧
    MonteCarloAttack wActions 14 1 rawZero = some [0] ∧
    ∀ x ∈ [(0 : ℤ)], (0 : ℤ) ≤ x := by
  refine ⟨by decide, by decide, ?_⟩
  exact claim_C2_nonneg_amended wActions 14 1 rawZero [0] (by decide)
    (by decide)

/-- C4: in the action loop, a non-`"hit"` action keyed `"prof"` adds its roll
to the base damage and is excluded from the critical sum (no second roll,
the offset advances only past the first roll); every other non-`"hit"`
action adds a fresh independent re-roll — drawn at the offset left by its
first roll — to the critical sum.  For a dice spec the two rolls read the
disjoint stream segments starting at `off` and at `off1 = off + count * n`. -/
theorem claim_C4_prof_excluded_from_critical (k : String) (v : PyVal)
    (rest : List (String × PyVal)) (n : ℕ) (raw : ℕ → ℕ)
    (base crit : List ℤ) (off : ℕ) (r r2 : List ℤ) (off1 off2 : ℕ)
    (hk : ¬k = "hit")
    (h1 : rollValueN v n raw off = some (r, off1))
    (h2 : rollValueN v n raw off1 = some (r2, off2)) :
    (accumDamage ((k, v) :: rest) n raw base crit off =
      if k = "prof" then
        accumDamage rest n raw (List.zipWith (fun x y => x + y) base r) crit
          off1
      else
        accumDamage rest n raw (List.zipWith (fun x y => x + y) base r)
          (List.zipWith (fun x y => x + y) crit r2) off2) ∧
    ∀ (s : String) (die val : ℤ), v = PyVal.str s → ¬s.length = 1 →
      parseDice s = some (die, val) → 1 ≤ die → 1 ≤ val →
      r = (List.range n).map (drawSum die.toNat val.toNat n raw off) ∧
      r2 = (List.range n).map (drawSum die.toNat val.toNat n raw off1) ∧
      off1 = off + die.toNat * n := by
  constructor
  · simp only [accumDamage]
    rw [if_neg hk, h1]
    dsimp only
    by_cases hkp : k = "prof"
    · rw [if_pos hkp, if_pos hkp]
    · rw [if_neg hkp, if_neg hkp, h2]
  · intro s die val hv hs hp hdie hval
    subst hv
    rw [rollValueN_dice hs hp hdie hval] at h1 h2
    simp only [Option.some.injEq, Prod.mk.injEq] at h1 h2
    exact ⟨h1.1.symm, h2.1.symm, h1.2.symm⟩

/-- Witness for C4 at the action `("longbow", "1D8")` (not `"prof"`): the
critical sum receives the fresh re-roll drawn at offset 1. -/
theorem claim_C4_prof_excluded_from_critical_witness :
    ¬("longbow" = "hit") ∧
    rollValueN (PyVal.str "1D8") 1 rawZero 0 = some ([1], 1) ∧
    rollValueN (PyVal.str "1D8") 1 rawZero 1 = some ([1], 2) ∧
    (accumDamage [("longbow", PyVal.str "1D8")] 1 rawZero [0] [0] 0 =
      if "longbow" = "prof" then
        accumDamage [] 1 rawZero (List.zipWith (fun x y => x + y) [0] [1]) [0]
          1
      else
        accumDamage [] 1 rawZero (List.zipWith (fun x y => x + y) [0] [1])
          (List.zipWith (fun x y => x + y) [0] [1]) 2) := by
  refine ⟨by decide, by decide, by decide, ?_⟩
  exact (claim_C4_prof_excluded_from_critical "longbow" (PyVal.str "1D8") []
    1 rawZero [0] [0] 0 [1] [1] 1 2 (by decide) (by decide) (by decide)).1

/-- C10: a real-valued trial count `n ≥ 1` (also a non-integer) is coerced by
truncation (`int(n)`, which on non-negative reals is the floor), and both
`GetRollValue` and `MonteCarloAttack` return exactly `int(n)` entries. -/
theorem claim_C10_trial_count_truncation (n : ℚ) (raw : ℕ → ℕ) (hn : 1 ≤ n) :
    pyInt n = ⌊n⌋ ∧ 1 ≤ pyIntNat n ∧
    (∀ roll out, GetRollValue roll n raw = some out →
      out.length = pyIntNat n) ∧
    ∀ (actions : List (String × PyVal)) (ac : ℤ) (out : List ℤ),
      MonteCarloAttack actions ac n raw = some out →
      out.length = pyIntNat n := by
  have h0 : (0 : ℚ) ≤ n := le_trans zero_le_one hn
  have hfloor : (1 : ℤ) ≤ ⌊n⌋ := Int.le_floor.2 (by exact_mod_cast hn)
  refine ⟨by simp [pyInt, h0], ?_, ?_, ?_⟩
  · simp only [pyIntNat, pyInt, h0, if_true]
    omega
  · intro roll out hout
    unfold GetRollValue at hout
    cases hr : rollValueN roll (pyIntNat n) raw 0 with
    | none => rw [hr] at hout; exact absurd hout (by simp)
    | some p =>
      obtain ⟨r, offr⟩ := p
      rw [hr] at hout
      simp only [Option.map_some', Option.some.injEq] at hout
      rw [← hout]
      exact rollValueN_length hr
  · intro actions ac out hout
    exact monteCarloAttack_length hout

/-- Witness for C10 at the non-integer trial count `3/2`, truncated to a
single trial. -/
theorem claim_C10_trial_count_truncation_witness :
    (1 : ℚ) ≤ threeHalves ∧ pyIntNat threeHalves = 1 ∧
    pyInt threeHalves = ⌊threeHalves⌋ ∧
    ∀ roll out, GetRollValue roll threeHalves rawZero = some out →
      out.length = pyIntNat threeHalves := by
  refine ⟨by decide, by decide, ?_, ?_⟩
  · exact (claim_C10_trial_count_truncation threeHalves rawZero (by decide)).1
  · exact (claim_C10_trial_count_truncation threeHalves rawZero
      (by decide)).2.2.1
